import Mathlib

/-!
Verification development for the delivery-optimization repository
(src/delivery_optimization.py).  The Python program is shallowly embedded:
Python strings become lists of characters, CSV numeric fields become
rationals, the LP problem built by `delivery_optimization` becomes an
explicit record of objective terms, linear constraints and variable
declarations, and the post-solve decoding of the solver's variables becomes
pure list processing.
-/

namespace DeliveryOpt

/-- Python strings are modelled as lists of characters. -/
abbrev Chars := List Char

/-- An item record read from the CSV file, with the canonical columns
`name`, `max_count`, `weight`, `utility` (delivery_optimization.py, docstring
and line 98).  Numeric fields are modelled as rationals. -/
structure Item where
  name : Chars
  maxCount : Rat
  weight : Rat
  utility : Rat
deriving DecidableEq

/-- The variable-name substitution performed by the LP library, as documented
in the source comments (lines 171-178, 227-231): every whitespace character
in a variable name is replaced by an underscore. -/
def sanitize (s : Chars) : Chars := s.map fun c => if c = ' ' then '_' else c

/-- Decimal digit characters of a natural number, modelling Python
`"{}".format(truck_number)` for the (non-negative) truck indices. -/
def natChars (n : Nat) : Chars := Nat.toDigits 10 n

/-- The truck part of a decoded variable name, `"Truck_<t>_"`, used by the
decoder (line 187) and produced by the LP library's naming (lines 104, 171). -/
def trkPfx (t : Nat) : Chars := "Truck_".data ++ natChars t ++ ['_']

/-- The full LP variable name of the pair (truck `t`, item name `nm`): the
library names the variable `"Truck <t>"` + `"_"` + item name (line 104) and
then sanitizes the whole name (comments, lines 171-172). -/
def encode (t : Nat) (nm : Chars) : Chars :=
  sanitize ("Truck ".data ++ natChars t ++ ['_'] ++ nm)

/-- Decoding of one truck's result variables (lines 186-194): keep exactly the
variables whose name starts with `"Truck_<t>_"` and strip that head.  The
Python dict comprehension is modelled as an association list in iteration
order. -/
def decodeTruck (t : Nat) (vs : List (Chars × Rat)) : List (Chars × Rat) :=
  (vs.filter fun v => (trkPfx t).isPrefixOf v.1).map
    fun v => (v.1.drop (trkPfx t).length, v.2)

/-- The whole decoded result list, one entry per truck (lines 184-194). -/
def decodeTrucks (n : Nat) (vs : List (Chars × Rat)) : List (List (Chars × Rat)) :=
  (List.range n).map fun t => decodeTruck t vs

/-- Numeric value of a decimal digit character. -/
def chVal (c : Char) : Nat := c.toNat - 48

/-- Value of a decimal digit string, most significant digit first. -/
def valOf (l : Chars) : Nat := l.foldl (fun a c => 10 * a + chVal c) 0

/-- Unit conversion applied to a weight group (lines 61-69): exactly the flag
value "kg" multiplies every weight by 1000; any other flag value leaves the
group unchanged, with no validation of the flag string. -/
def toGram (unit : String) (ws : List Rat) : List Rat :=
  if unit = "kg" then ws.map (fun w => w * 1000) else ws

/-- Possible item load of each truck (lines 73-75): converted max loading
minus converted driver weight, pairwise over the two lists. -/
def possibleLoads (trucksMax drivers : List Rat) (tu du : String) : List Rat :=
  ((toGram tu trucksMax).zip (toGram du drivers)).map fun p => p.1 - p.2

/-- A linear inequality `Σ coefficient * variable ≤ rhs`, a constraint of the
LP problem; a term pairs a variable name with its coefficient. -/
structure LinCon where
  terms : List (Chars × Rat)
  rhs : Rat
deriving DecidableEq

/-- Value of a constraint's left-hand side under an assignment of the
variables. -/
def LinCon.lhsEval (c : LinCon) (x : Chars → Rat) : Rat :=
  (c.terms.map fun p => p.2 * x p.1).sum

/-- A decision-variable declaration as handed to the LP library
(lines 104-105). -/
structure VarDecl where
  name : Chars
  lowBound : Option Rat
  upBound : Option Rat
  cat : String
deriving DecidableEq

/-- The decision variables (lines 104-105): one per truck per item, named by
the library's scheme, lower bound 0, no upper bound, category "Integer". -/
def buildVars (n : Nat) (items : List Item) : List VarDecl :=
  (List.range n).flatMap fun t => items.map fun it =>
    { name := encode t it.name, lowBound := some 0, upBound := none,
      cat := "Integer" }

/-- The objective terms (lines 116-120): utility times the count variable,
for each item (outer loop) and each truck (inner loop). -/
def objectiveTerms (n : Nat) (items : List Item) : List (Chars × Rat) :=
  items.flatMap fun it => (List.range n).map fun t => (encode t it.name, it.utility)

/-- The per-truck capacity constraints (lines 136-141): for each truck, the
item weights times the truck's count variables, bounded by the truck's
possible load. -/
def capacityCons (loads : List Rat) (items : List Item) : List LinCon :=
  loads.enum.map fun p =>
    { terms := items.map fun it => (encode p.1 it.name, it.weight), rhs := p.2 }

/-- The per-item supply constraints (lines 152-154): for each item, the sum of
its count variables over all trucks, bounded by the item's max count. -/
def supplyCons (n : Nat) (items : List Item) : List LinCon :=
  items.map fun it =>
    { terms := (List.range n).map fun t => (encode t it.name, (1 : Rat)),
      rhs := it.maxCount }

/-- The assembled LP problem: sense of optimization, objective terms,
constraint list in construction order, variable declarations. -/
structure LpProb where
  maximize : Bool
  objective : List (Chars × Rat)
  constraints : List LinCon
  vars : List VarDecl
deriving DecidableEq

/-- Value of the objective under an assignment of the variables. -/
def objEval (P : LpProb) (x : Chars → Rat) : Rat :=
  (P.objective.map fun p => p.2 * x p.1).sum

/-- The LP problem assembled by delivery_optimization (lines 95-154) from the
truck loads and the item rows, in the source's construction order: the
maximization objective, then one capacity constraint per truck, then one
supply constraint per item. -/
def buildProblem (loads : List Rat) (items : List Item) : LpProb :=
  { maximize := true
    objective := objectiveTerms loads.length items
    constraints := capacityCons loads items ++ supplyCons loads.length items
    vars := buildVars loads.length items }

/-- The configuration failure of delivery_optimization: the truck-count /
driver-count mismatch aborts the run (lines 53-55). -/
inductive ConfigError | lengthMismatch
deriving DecidableEq

/-- delivery_optimization up to handing the problem to the solver
(lines 53-154): the length check aborts, otherwise the loads are converted
and the LP problem is built; no other input validation exists. -/
def buildDelivery (trucksMax drivers : List Rat) (tu du : String)
    (items : List Item) : Except ConfigError LpProb :=
  if trucksMax.length ≠ drivers.length then .error .lengthMismatch
  else .ok (buildProblem (possibleLoads trucksMax drivers tu du) items)

/-- The solver status values of the LP library. -/
inductive SolveStatus
  | optimal
  | infeasible
  | unbounded
  | notSolved
  | undefinedStatus
deriving DecidableEq

/-- The result-conversion phase after the solve call (lines 162-194): the
solver status is only printed (line 166) and the per-truck result lists are
built from the returned variables unconditionally, whatever the status. -/
def postSolve (_status : SolveStatus) (n : Nat) (vs : List (Chars × Rat)) :
    List (List (Chars × Rat)) :=
  decodeTrucks n vs

/-- Total weight of one truck's load, recomputed from the decoded counts and
the item rows (lines 234-246): every item row whose whitespace-sanitized name
equals the decoded key contributes count times weight. -/
def totalTruckWeight (items : List Item) (truckItems : List (Chars × Rat)) : Rat :=
  (truckItems.flatMap fun kv =>
    (items.filter fun it => sanitize it.name == kv.1).map
      fun it => kv.2 * it.weight).sum

/-- The aggregate figures reported for one run. -/
structure Report where
  truckWeights : List Rat
  totalUtility : Rat
deriving DecidableEq

/-- The reported aggregates (lines 234-255): the per-truck total weight is
recomputed from the decoded counts; the total utility is the value of the
solver's objective function, taken directly (line 253). -/
def buildReport (items : List Item) (decoded : List (List (Chars × Rat)))
    (objValue : Rat) : Report :=
  { truckWeights := decoded.map (totalTruckWeight items)
    totalUtility := objValue }

/-- Modelled from the spec: "overall total utility from the decoded counts,
recomputed independently from entity data" — the source contains no such
recomputation, so this definition follows the spec's wording, to be compared
with the report the code builds. -/
def specRecomputedUtility (items : List Item)
    (decoded : List (List (Chars × Rat))) : Rat :=
  (decoded.flatMap fun tr => tr.flatMap fun kv =>
    (items.filter fun it => sanitize it.name == kv.1).map
      fun it => kv.2 * it.utility).sum

/-- Weight of the first item row whose sanitized name matches a decoded key,
0 when none matches. -/
def weightOf (items : List Item) (k : Chars) : Rat :=
  ((items.find? fun it => sanitize it.name == k).map Item.weight).getD 0

/-- Python dict insertion for the efficiency dict: an existing key is updated
in place, a new key is appended. -/
def dictUpsert (d : List (Chars × Rat)) (k : Chars) (v : Rat) :
    List (Chars × Rat) :=
  if d.any fun kv => kv.1 == k then
    d.map fun kv => if kv.1 == k then (k, v) else kv
  else d ++ [(k, v)]

/-- The efficiency dict of show_items_efficiency (line 285): item name mapped
to utility / weight, in row order. -/
def effDict (items : List Item) : List (Chars × Rat) :=
  items.foldl (fun d it => dictUpsert d it.name (it.utility / it.weight)) []

/-- One insertion step of a stable descending sort on the second component. -/
def insertDescEff (x : Chars × Rat) : List (Chars × Rat) → List (Chars × Rat)
  | [] => [x]
  | y :: ys => if x.2 < y.2 then y :: insertDescEff x ys else x :: y :: ys

/-- Stable descending sort on the second component, modelling Python
sorted(..., key=value, reverse=True) (line 287), which is a stable sort. -/
def sortDescEff : List (Chars × Rat) → List (Chars × Rat)
  | [] => []
  | x :: xs => insertDescEff x (sortDescEff xs)

/-- show_items_efficiency (lines 260-295): efficiency = utility / weight per
item row, returned ordered by efficiency, highest first. -/
def show_items_efficiency (items : List Item) : List (Chars × Rat) :=
  sortDescEff (effDict items)

/- ### Digit characters -/

theorem digitChar_isDigit {n : Nat} (h : n < 10) : (Nat.digitChar n).isDigit = true := by
  interval_cases n <;> decide

theorem toDigitsCore_isDigit (fuel : Nat) :
    ∀ (n : Nat) (acc : Chars), (∀ c ∈ acc, c.isDigit = true) →
      ∀ c ∈ Nat.toDigitsCore 10 fuel n acc, c.isDigit = true := by
  induction fuel with
  | zero =>
    intro n acc hacc c hc
    exact hacc c hc
  | succ f ih =>
    intro n acc hacc c hc
    rw [Nat.toDigitsCore] at hc
    have hd : (Nat.digitChar (n % 10)).isDigit = true :=
      digitChar_isDigit (Nat.mod_lt _ (by norm_num))
    by_cases h10 : n / 10 = 0
    · simp only [h10, if_pos] at hc
      rcases List.mem_cons.mp hc with h | h
      · rw [h]; exact hd
      · exact hacc c h
    · simp only [h10, if_neg, if_false] at hc
      refine ih (n / 10) (Nat.digitChar (n % 10) :: acc) ?_ c hc
      intro d hdm
      rcases List.mem_cons.mp hdm with h | h
      · rw [h]; exact hd
      · exact hacc d h

theorem natChars_isDigit (n : Nat) : ∀ c ∈ natChars n, c.isDigit = true := by
  intro c hc
  rw [natChars, Nat.toDigits] at hc
  exact toDigitsCore_isDigit (n + 1) n [] (by simp) c hc

theorem natChars_ne_underscore (n : Nat) : ∀ c ∈ natChars n, c ≠ '_' := by
  intro c hc h
  have := natChars_isDigit n c hc
  rw [h] at this
  exact absurd this (by decide)

theorem natChars_ne_space (n : Nat) : ∀ c ∈ natChars n, c ≠ ' ' := by
  intro c hc h
  have := natChars_isDigit n c hc
  rw [h] at this
  exact absurd this (by decide)

theorem chVal_digitChar {m : Nat} (h : m < 10) : chVal (Nat.digitChar m) = m := by
  interval_cases m <;> decide

theorem toDigitsCore_valOf (fuel : Nat) :
    ∀ (n : Nat) (acc : Chars), n < 10 ^ fuel →
      List.foldl (fun a c => 10 * a + chVal c) 0 (Nat.toDigitsCore 10 fuel n acc)
        = List.foldl (fun a c => 10 * a + chVal c) n acc := by
  induction fuel with
  | zero =>
    intro n acc h
    have : n = 0 := Nat.lt_one_iff.mp (by simpa using h)
    rw [this]
    rfl
  | succ f ih =>
    intro n acc h
    rw [Nat.toDigitsCore]
    have hm : chVal (Nat.digitChar (n % 10)) = n % 10 :=
      chVal_digitChar (Nat.mod_lt _ (by norm_num))
    by_cases h10 : n / 10 = 0
    · have hn : n < 10 := by omega
      simp only [h10, if_pos, List.foldl_cons]
      rw [hm, Nat.mul_zero, Nat.zero_add, Nat.mod_eq_of_lt hn]
    · simp only [h10, if_neg, if_false]
      have hlt : n / 10 < 10 ^ f := by
        have h' : n < 10 ^ f * 10 := by
          rw [← pow_succ]
          exact h
        exact Nat.div_lt_of_lt_mul (by linarith [h'])
      rw [ih (n / 10) (Nat.digitChar (n % 10) :: acc) hlt]
      simp only [List.foldl_cons]
      rw [hm, Nat.div_add_mod]

theorem valOf_natChars (n : Nat) : valOf (natChars n) = n := by
  have hb : n < 10 ^ (n + 1) := by
    calc n < 10 ^ n := Nat.lt_pow_self (by norm_num) n
    _ ≤ 10 ^ (n + 1) := Nat.pow_le_pow_right (by norm_num) (Nat.le_succ n)
  rw [natChars, Nat.toDigits, valOf]
  rw [toDigitsCore_valOf (n + 1) n [] hb]
  rfl

theorem natChars_injective {m n : Nat} (h : natChars m = natChars n) : m = n := by
  have hm := valOf_natChars m
  rw [h, valOf_natChars n] at hm
  exact hm.symm

/- ### Separator facts about encoded names -/

theorem append_underscore_inj (d₁ : Chars) :
    ∀ (d₂ s₁ s₂ : Chars), (∀ c ∈ d₁, c ≠ '_') → (∀ c ∈ d₂, c ≠ '_') →
      d₁ ++ '_' :: s₁ = d₂ ++ '_' :: s₂ → d₁ = d₂ ∧ s₁ = s₂ := by
  induction d₁ with
  | nil =>
    intro d₂ s₁ s₂ _ h2 heq
    cases d₂ with
    | nil => simpa using heq
    | cons b bs =>
      simp only [List.nil_append, List.cons_append, List.cons.injEq] at heq
      exact absurd heq.1.symm (h2 b (List.mem_cons_self b bs))
  | cons a as ih =>
    intro d₂ s₁ s₂ h1 h2 heq
    cases d₂ with
    | nil =>
      simp only [List.cons_append, List.nil_append, List.cons.injEq] at heq
      exact absurd heq.1 (h1 a (List.mem_cons_self a as))
    | cons b bs =>
      simp only [List.cons_append, List.cons.injEq] at heq
      obtain ⟨hab, rest⟩ := heq
      obtain ⟨hd, hs⟩ := ih bs s₁ s₂
        (fun c hc => h1 c (List.mem_cons_of_mem _ hc))
        (fun c hc => h2 c (List.mem_cons_of_mem _ hc)) rest
      exact ⟨by rw [hab, hd], hs⟩

theorem isPrefixOf_append_self (l u : Chars) : l.isPrefixOf (l ++ u) = true := by
  induction l with
  | nil => simp only [List.isPrefixOf_nil_left]
  | cons a as ih =>
    simp only [List.cons_append, List.isPrefixOf_cons₂, Bool.and_eq_true, beq_iff_eq]
    exact ⟨trivial, ih⟩

theorem isPrefixOf_append_left (a : Chars) :
    ∀ (b c : Chars), (a ++ b).isPrefixOf (a ++ c) = b.isPrefixOf c := by
  induction a with
  | nil => intro b c; simp only [List.nil_append]
  | cons x xs ih =>
    intro b c
    simp only [List.cons_append, List.isPrefixOf_cons₂, beq_self_eq_true,
      Bool.true_and, ih]

theorem isPrefixOf_recover (p : Chars) :
    ∀ (l : Chars), p.isPrefixOf l = true → p ++ l.drop p.length = l := by
  induction p with
  | nil => intro l _; simp
  | cons a as ih =>
    intro l h
    cases l with
    | nil => simp [List.isPrefixOf_cons_nil] at h
    | cons b bs =>
      simp only [List.isPrefixOf_cons₂, Bool.and_eq_true, beq_iff_eq] at h
      obtain ⟨h1, h2⟩ := h
      simp only [List.cons_append, List.length_cons, List.drop_succ_cons]
      rw [h1, ih bs h2]

theorem pfx_digits_eq (d₁ : Chars) :
    ∀ (d₂ s₂ : Chars), (∀ c ∈ d₁, c ≠ '_') → (∀ c ∈ d₂, c ≠ '_') →
      (d₁ ++ ['_']).isPrefixOf (d₂ ++ '_' :: s₂) = true → d₁ = d₂ := by
  induction d₁ with
  | nil =>
    intro d₂ s₂ _ h2 h
    cases d₂ with
    | nil => rfl
    | cons b bs =>
      exfalso
      simp only [List.nil_append, List.cons_append, List.isPrefixOf_cons₂,
        List.isPrefixOf_nil_left, Bool.and_eq_true, beq_iff_eq, and_true] at h
      exact h2 b (List.mem_cons_self b bs) h.symm
  | cons a as ih =>
    intro d₂ s₂ h1 h2 h
    cases d₂ with
    | nil =>
      exfalso
      simp only [List.cons_append, List.nil_append, List.isPrefixOf_cons₂,
        Bool.and_eq_true, beq_iff_eq] at h
      exact h1 a (List.mem_cons_self a as) h.1
    | cons b bs =>
      simp only [List.cons_append, List.isPrefixOf_cons₂,
        Bool.and_eq_true, beq_iff_eq] at h
      obtain ⟨hab, rest⟩ := h
      rw [hab, ih bs s₂ (fun c hc => h1 c (List.mem_cons_of_mem _ hc))
        (fun c hc => h2 c (List.mem_cons_of_mem _ hc)) rest]

/- ### Structure of encoded names -/

theorem sanitize_append (l u : Chars) :
    sanitize (l ++ u) = sanitize l ++ sanitize u := List.map_append _ _ _

theorem sanitize_no_space {l : Chars} (h : ∀ c ∈ l, c ≠ ' ') : sanitize l = l := by
  induction l with
  | nil => rfl
  | cons a as ih =>
    have ha : a ≠ ' ' := h a (List.mem_cons_self a as)
    simp only [sanitize, List.map_cons, if_neg ha]
    rw [show List.map (fun c => if c = ' ' then '_' else c) as = sanitize as from rfl,
      ih fun c hc => h c (List.mem_cons_of_mem _ hc)]

theorem encode_eq (t : Nat) (nm : Chars) : encode t nm = trkPfx t ++ sanitize nm := by
  rw [encode, trkPfx, sanitize_append, sanitize_append, sanitize_append]
  rw [sanitize_no_space (natChars_ne_space t)]
  rw [show sanitize "Truck ".data = "Truck_".data from by decide]
  rw [show sanitize ['_'] = ['_'] from by decide]

theorem trkPfx_assoc (t : Nat) (s : Chars) :
    trkPfx t ++ s = "Truck_".data ++ (natChars t ++ '_' :: s) := by
  rw [trkPfx]
  simp [List.append_assoc]

theorem encode_pfx_inj {t t' : Nat} {nm : Chars}
    (h : (trkPfx t).isPrefixOf (encode t' nm) = true) : t = t' := by
  rw [encode_eq, trkPfx_assoc, trkPfx,
    show "Truck_".data ++ natChars t ++ ['_']
      = "Truck_".data ++ (natChars t ++ ['_']) from by simp [List.append_assoc],
    isPrefixOf_append_left] at h
  exact natChars_injective
    (pfx_digits_eq (natChars t) (natChars t') (sanitize nm)
      (natChars_ne_underscore t) (natChars_ne_underscore t') h)

theorem encode_inj {t t' : Nat} {nm nm' : Chars} (h : encode t nm = encode t' nm') :
    t = t' ∧ sanitize nm = sanitize nm' := by
  rw [encode_eq, encode_eq, trkPfx_assoc, trkPfx_assoc] at h
  have h' := List.append_cancel_left h
  obtain ⟨hd, hs⟩ := append_underscore_inj (natChars t) (natChars t')
    (sanitize nm) (sanitize nm') (natChars_ne_underscore t) (natChars_ne_underscore t') h'
  exact ⟨natChars_injective hd, hs⟩

theorem decodeTruck_single (t : Nat) (nm : Chars) (v : Rat) :
    decodeTruck t [(encode t nm, v)] = [(sanitize nm, v)] := by
  have hp : (trkPfx t).isPrefixOf (encode t nm) = true := by
    rw [encode_eq]; exact isPrefixOf_append_self _ _
  rw [decodeTruck, List.filter_cons_of_pos (by exact hp), List.filter_nil, List.map]
  rw [List.map_nil, encode_eq, List.drop_left]

theorem decodeTruck_other {t t' : Nat} (hne : t ≠ t') (nm : Chars) (v : Rat) :
    decodeTruck t [(encode t' nm, v)] = [] := by
  have hp : ¬ ((trkPfx t).isPrefixOf (encode t' nm) = true) := by
    intro h
    exact absurd (encode_pfx_inj h) hne
  rw [decodeTruck, List.filter_cons_of_neg (by exact hp), List.filter_nil, List.map_nil]

/-- C1 (counterexample): on truck 0, the two distinct item names "a b" and
"a_b" receive the same decision-variable identifier, because the identifier
scheme replaces whitespace by the same underscore that may already occur in a
name; so the encoding is not injective on (carrier, item) pairs. -/
theorem c1_identifier_collision :
    encode 0 "a b".data = encode 0 "a_b".data ∧ "a b".data ≠ "a_b".data := by
  constructor
  · decide
  · decide

/-- C1 (amended): the identifier scheme is reversible up to whitespace
sanitization: whenever the two item names are distinguishable after the
whitespace-to-underscore substitution, identifiers are injective on
(carrier, item) pairs — in particular carrier 1 and carrier 10 never collide
and an underscore inside an item name is harmless — and decoding strips
exactly the truck head, recovering the sanitized item name. -/
theorem c1_roundTrip (t t' : Nat) (nm nm' : Chars) (v : Rat)
    (hs : sanitize nm = sanitize nm' → nm = nm') :
    (encode t nm = encode t' nm' ↔ t = t' ∧ nm = nm') ∧
    decodeTruck t [(encode t nm, v)] = [(sanitize nm, v)] ∧
    (t ≠ t' → decodeTruck t [(encode t' nm', v)] = []) := by
  refine ⟨⟨fun h => ?_, fun h => by rw [h.1, h.2]⟩,
    decodeTruck_single t nm v, fun hne => decodeTruck_other hne nm' v⟩
  obtain ⟨ht, hsan⟩ := encode_inj h
  exact ⟨ht, hs hsan⟩

/-- Witness for C1 (amended) at carrier 1 vs carrier 10 and item names
"a_b" (contains the separator) and "c d" (contains whitespace). -/
theorem c1_roundTrip_wit :
    (encode 1 "a_b".data = encode 10 "c d".data ↔ 1 = 10 ∧ "a_b".data = "c d".data) ∧
    decodeTruck 1 [(encode 1 "a_b".data, 1)] = [(sanitize "a_b".data, 1)] ∧
    (1 ≠ 10 → decodeTruck 1 [(encode 10 "c d".data, 1)] = []) :=
  c1_roundTrip 1 10 "a_b".data "c d".data 1 (by decide)

/- ### The built LP problem -/

theorem toGram_length (u : String) (ws : List Rat) : (toGram u ws).length = ws.length := by
  rw [toGram]
  split <;> simp

theorem possibleLoads_length (trucksMax drivers : List Rat) (tu du : String)
    (h : trucksMax.length = drivers.length) :
    (possibleLoads trucksMax drivers tu du).length = trucksMax.length := by
  simp [possibleLoads, List.length_zip, toGram_length, h]

theorem possibleLoads_getElem (trucksMax drivers : List Rat) (tu du : String)
    (h : trucksMax.length = drivers.length) (t : Nat) (ht : t < trucksMax.length) :
    (possibleLoads trucksMax drivers tu du)[t]?
      = some ((toGram tu trucksMax).getD t 0 - (toGram du drivers).getD t 0) := by
  have h1 : t < (toGram tu trucksMax).length := by rw [toGram_length]; exact ht
  have h2 : t < (toGram du drivers).length := by rw [toGram_length, ← h]; exact ht
  rw [possibleLoads, List.getElem?_map, List.zip, List.getElem?_zipWith]
  rw [List.getElem?_eq_getElem h1, List.getElem?_eq_getElem h2]
  simp [List.getD_eq_getElem?_getD, List.getElem?_eq_getElem, h1, h2]

theorem capacityCons_getElem (loads : List Rat) (items : List Item) (t : Nat)
    (ht : t < loads.length) :
    (capacityCons loads items)[t]?
      = some { terms := items.map fun it => (encode t it.name, it.weight),
               rhs := loads.getD t 0 } := by
  rw [capacityCons, List.getElem?_map, List.enum, List.getElem?_enumFrom]
  rw [List.getElem?_eq_getElem ht]
  simp [List.getD_eq_getElem?_getD, List.getElem?_eq_getElem, ht]

theorem supplyCons_getElem (n : Nat) (items : List Item) (i : Nat)
    (hi : i < items.length) :
    (supplyCons n items)[i]?
      = some { terms := (List.range n).map fun t => (encode t items[i].name, (1 : Rat)),
               rhs := items[i].maxCount } := by
  rw [supplyCons, List.getElem?_map, List.getElem?_eq_getElem hi]
  rfl

theorem sum_map_flatMap {α β : Type} (l : List α) (f : α → List β) (g : β → Rat) :
    ((l.flatMap f).map g).sum = (l.map fun a => ((f a).map g).sum).sum := by
  induction l with
  | nil => rfl
  | cons a as ih => simp [List.flatMap_cons, List.map_append, List.sum_append, ih]

theorem sum_flatMap_rat {α : Type} (l : List α) (f : α → List Rat) :
    (l.flatMap f).sum = (l.map fun a => (f a).sum).sum := by
  induction l with
  | nil => rfl
  | cons a as ih => simp [List.flatMap_cons, List.sum_append, ih]

theorem buildProblem_constraints (loads : List Rat) (items : List Item) :
    (buildProblem loads items).constraints
      = capacityCons loads items ++ supplyCons loads.length items := rfl

theorem buildProblem_objective (loads : List Rat) (items : List Item) :
    (buildProblem loads items).objective = objectiveTerms loads.length items := rfl

theorem buildProblem_vars (loads : List Rat) (items : List Item) :
    (buildProblem loads items).vars = buildVars loads.length items := rfl

theorem buildProblem_maximize (loads : List Rat) (items : List Item) :
    (buildProblem loads items).maximize = true := rfl

theorem capacityCons_length (loads : List Rat) (items : List Item) :
    (capacityCons loads items).length = loads.length := by
  simp [capacityCons]

theorem supplyCons_length (n : Nat) (items : List Item) :
    (supplyCons n items).length = items.length := by
  simp [supplyCons]

theorem length_buildVars (n : Nat) (items : List Item) :
    (buildVars n items).length = n * items.length := by
  induction n with
  | zero => simp [buildVars]
  | succ m ih =>
    rw [buildVars, List.range_succ, List.flatMap_append, List.length_append]
    rw [show ((List.range m).flatMap fun t => items.map fun it =>
      ({ name := encode t it.name, lowBound := some 0, upBound := none,
         cat := "Integer" } : VarDecl)) = buildVars m items from rfl, ih]
    simp [Nat.succ_mul]

/-- C10: the measuring-unit flags are interpreted by exact comparison with the
string "kg": that flag value multiplies every weight of its group (truck
loadings resp. driver weights) by exactly 1000, and any other string leaves
the group's weights unchanged — no validation and no error for an
unrecognized unit string. -/
theorem c10_measuringUnits (tu du : String) (trucksMax drivers : List Rat) :
    (tu = "kg" → toGram tu trucksMax = trucksMax.map fun w => w * 1000) ∧
    (tu ≠ "kg" → toGram tu trucksMax = trucksMax) ∧
    (du = "kg" → toGram du drivers = drivers.map fun w => w * 1000) ∧
    (du ≠ "kg" → toGram du drivers = drivers) := by
  refine ⟨fun h => ?_, fun h => ?_, fun h => ?_, fun h => ?_⟩ <;> simp [toGram, h]

/-- Witness for C10 at the flag values "kg" and "pound". -/
theorem c10_measuringUnits_wit :
    toGram "kg" [2] = [2000] ∧ toGram "pound" [3] = [3] := by
  constructor
  · rw [(c10_measuringUnits "kg" "pound" [2] [3]).1 rfl]
    norm_num
  · exact (c10_measuringUnits "kg" "pound" [2] [3]).2.2.2 (by decide)

/-- C8 (counterexample): with one carrier of gross capacity 100 gram and a
reserved driver weight of 200 gram, construction succeeds — there is no
configuration error — and the carrier's capacity constraint carries the
negative usable capacity -100 as its right-hand side. -/
theorem c8_cex :
    buildDelivery [100] [200] "gram" "gram" [⟨"box".data, 10, 5000, 3⟩]
      = .ok (buildProblem [-100] [⟨"box".data, 10, 5000, 3⟩]) ∧
    ((-100 : Rat) < 0) := by
  constructor
  · rw [buildDelivery, if_neg (by decide)]
    norm_num [possibleLoads, toGram, show "gram" ≠ "kg" from by decide]
  · norm_num

/-- C8 (amended): once the truck/driver count check passes, problem
construction never fails: a reserved weight exceeding the gross capacity is
not detected, and the (possibly negative) usable capacity is passed straight
through as the right-hand side of that carrier's capacity constraint. -/
theorem c8_noNegativeCapacityCheck (trucksMax drivers : List Rat) (tu du : String)
    (items : List Item) (h : trucksMax.length = drivers.length) :
    buildDelivery trucksMax drivers tu du items
      = .ok (buildProblem (possibleLoads trucksMax drivers tu du) items) ∧
    ∀ t, t < trucksMax.length →
      ∃ c, (buildProblem (possibleLoads trucksMax drivers tu du) items).constraints[t]?
            = some c ∧
        c.rhs = (toGram tu trucksMax).getD t 0 - (toGram du drivers).getD t 0 := by
  constructor
  · rw [buildDelivery, if_neg (fun hn => hn h)]
  · intro t ht
    have hlen := possibleLoads_length trucksMax drivers tu du h
    have ht' : t < (possibleLoads trucksMax drivers tu du).length := by
      rw [hlen]; exact ht
    refine ⟨{ terms := items.map fun it => (encode t it.name, it.weight),
              rhs := (possibleLoads trucksMax drivers tu du).getD t 0 }, ?_, ?_⟩
    · rw [buildProblem_constraints]
      rw [List.getElem?_append_left (by rw [capacityCons_length]; exact ht')]
      exact capacityCons_getElem _ items t ht'
    · rw [List.getD_eq_getElem?_getD, possibleLoads_getElem trucksMax drivers tu du h t ht]
      rfl

/-- C2: the problem built by delivery_optimization has, per carrier, exactly
one capacity constraint, at position t for carrier t (all later positions
hold the per-item supply constraints, see the C3 theorem): its left-hand side
evaluates under any assignment to the sum over all items of unit weight times
the (carrier, item) count variable, and its right-hand side is the carrier's
usable capacity — unit-converted gross capacity minus unit-converted reserved
driver weight. -/
theorem c2_capacityConstraints (trucksMax drivers : List Rat) (tu du : String)
    (items : List Item) (h : trucksMax.length = drivers.length) :
    (buildProblem (possibleLoads trucksMax drivers tu du) items).constraints.length
        = trucksMax.length + items.length ∧
    ∀ t, t < trucksMax.length →
      ∃ c, (buildProblem (possibleLoads trucksMax drivers tu du) items).constraints[t]?
            = some c ∧
        (∀ x, c.lhsEval x
            = (items.map fun it => it.weight * x (encode t it.name)).sum) ∧
        c.rhs = (toGram tu trucksMax).getD t 0 - (toGram du drivers).getD t 0 := by
  have hlen := possibleLoads_length trucksMax drivers tu du h
  constructor
  · rw [buildProblem_constraints, List.length_append, capacityCons_length,
      supplyCons_length, hlen]
  · intro t ht
    have ht' : t < (possibleLoads trucksMax drivers tu du).length := by
      rw [hlen]; exact ht
    refine ⟨{ terms := items.map fun it => (encode t it.name, it.weight),
              rhs := (possibleLoads trucksMax drivers tu du).getD t 0 }, ?_, ?_, ?_⟩
    · rw [buildProblem_constraints]
      rw [List.getElem?_append_left (by rw [capacityCons_length]; exact ht')]
      exact capacityCons_getElem _ items t ht'
    · intro x
      simp [LinCon.lhsEval, List.map_map, Function.comp_def]
    · rw [List.getD_eq_getElem?_getD,
        possibleLoads_getElem trucksMax drivers tu du h t ht]
      rfl

/-- Witness for C2 at one carrier (gross 2 kg, driver 1 kg) and one item. -/
theorem c2_capacityConstraints_wit :
    (buildProblem (possibleLoads [2] [1] "kg" "kg")
        [⟨"box".data, 10, 5000, 3⟩]).constraints.length
        = [(2 : Rat)].length + [(⟨"box".data, 10, 5000, 3⟩ : Item)].length ∧
    ∀ t, t < [(2 : Rat)].length →
      ∃ c, (buildProblem (possibleLoads [2] [1] "kg" "kg")
            [⟨"box".data, 10, 5000, 3⟩]).constraints[t]? = some c ∧
        (∀ x, c.lhsEval x
            = ([(⟨"box".data, 10, 5000, 3⟩ : Item)].map
                fun it => it.weight * x (encode t it.name)).sum) ∧
        c.rhs = (toGram "kg" [2]).getD t 0 - (toGram "kg" [1]).getD t 0 :=
  c2_capacityConstraints [2] [1] "kg" "kg" [⟨"box".data, 10, 5000, 3⟩] (by decide)

/-- C3: the problem built by delivery_optimization has, per item, exactly one
supply constraint, at position (carrier count) + i for item i: its left-hand
side evaluates under any assignment to the sum over all carriers of the
(carrier, item) count variable and its right-hand side is the item's max
count; consequently every assignment satisfying the constraints assigns, in
total over all carriers, at most max_count units of the item, regardless of
how much combined capacity the carriers have. -/
theorem c3_supplyConstraints (trucksMax drivers : List Rat) (tu du : String)
    (items : List Item) (h : trucksMax.length = drivers.length) :
    (∀ i, (hi : i < items.length) →
      ∃ c, (buildProblem (possibleLoads trucksMax drivers tu du)
              items).constraints[trucksMax.length + i]? = some c ∧
        (∀ x, c.lhsEval x
            = ((List.range trucksMax.length).map
                fun t => x (encode t items[i].name)).sum) ∧
        c.rhs = items[i].maxCount) ∧
    (∀ x, (∀ c ∈ (buildProblem (possibleLoads trucksMax drivers tu du)
          items).constraints, c.lhsEval x ≤ c.rhs) →
      ∀ it ∈ items,
        ((List.range trucksMax.length).map fun t => x (encode t it.name)).sum
          ≤ it.maxCount) := by
  have hlen := possibleLoads_length trucksMax drivers tu du h
  constructor
  · intro i hi
    refine ⟨{ terms := (List.range trucksMax.length).map
                fun t => (encode t items[i].name, (1 : Rat)),
              rhs := items[i].maxCount }, ?_, ?_, rfl⟩
    · rw [buildProblem_constraints, hlen,
        List.getElem?_append_right (by rw [capacityCons_length, hlen]; omega),
        capacityCons_length, hlen]
      rw [show trucksMax.length + i - trucksMax.length = i from by omega]
      exact supplyCons_getElem trucksMax.length items i hi
    · intro x
      simp [LinCon.lhsEval, List.map_map, Function.comp_def]
  · intro x hsat it hit
    have hmem : ({ terms := (List.range trucksMax.length).map
                    fun t => (encode t it.name, (1 : Rat)),
                   rhs := it.maxCount } : LinCon)
        ∈ (buildProblem (possibleLoads trucksMax drivers tu du)
            items).constraints := by
      rw [buildProblem_constraints, hlen]
      exact List.mem_append_right _ (List.mem_map_of_mem _ hit)
    have hle := hsat _ hmem
    simpa [LinCon.lhsEval, List.map_map, Function.comp_def] using hle

/-- Witness for C3 at two carriers and one item with max count 5, matching
the spec's supply-cap scenario shape. -/
theorem c3_supplyConstraints_wit :
    (∀ i, (hi : i < [(⟨"box".data, 5, 500000, 1⟩ : Item)].length) →
      ∃ c, (buildProblem (possibleLoads [1100, 1100] [724/10, 857/10] "kg" "kg")
              [⟨"box".data, 5, 500000, 1⟩]).constraints[[(1100 : Rat), 1100].length + i]?
            = some c ∧
        (∀ x, c.lhsEval x
            = ((List.range [(1100 : Rat), 1100].length).map
                fun t => x (encode t [(⟨"box".data, 5, 500000, 1⟩ : Item)][i].name)).sum) ∧
        c.rhs = [(⟨"box".data, 5, 500000, 1⟩ : Item)][i].maxCount) ∧
    (∀ x, (∀ c ∈ (buildProblem (possibleLoads [1100, 1100] [724/10, 857/10] "kg" "kg")
          [⟨"box".data, 5, 500000, 1⟩]).constraints, c.lhsEval x ≤ c.rhs) →
      ∀ it ∈ [(⟨"box".data, 5, 500000, 1⟩ : Item)],
        ((List.range [(1100 : Rat), 1100].length).map
            fun t => x (encode t it.name)).sum ≤ it.maxCount) :=
  c3_supplyConstraints [1100, 1100] [724/10, 857/10] "kg" "kg"
    [⟨"box".data, 5, 500000, 1⟩] (by decide)

theorem objEval_buildProblem (loads : List Rat) (items : List Item) (x : Chars → Rat) :
    objEval (buildProblem loads items) x
      = (items.map fun it =>
          ((List.range loads.length).map
            fun t => it.utility * x (encode t it.name)).sum).sum := by
  rw [objEval, buildProblem_objective, objectiveTerms, sum_map_flatMap]
  simp [List.map_map, Function.comp_def]

/-- C4: the problem is a maximization whose objective evaluates, under any
assignment, to the sum over all (carrier, item) pairs of the item's unit
utility times that pair's integer count variable; there is one variable per
(carrier, item) pair, and every variable has lower bound 0, category
"Integer", and no upper bound. -/
theorem c4_objective (trucksMax drivers : List Rat) (tu du : String)
    (items : List Item) (h : trucksMax.length = drivers.length) :
    (buildProblem (possibleLoads trucksMax drivers tu du) items).maximize = true ∧
    (∀ x, objEval (buildProblem (possibleLoads trucksMax drivers tu du) items) x
        = (items.map fun it =>
            ((List.range trucksMax.length).map
              fun t => it.utility * x (encode t it.name)).sum).sum) ∧
    (buildProblem (possibleLoads trucksMax drivers tu du) items).vars.length
        = trucksMax.length * items.length ∧
    ∀ v ∈ (buildProblem (possibleLoads trucksMax drivers tu du) items).vars,
      v.lowBound = some 0 ∧ v.upBound = none ∧ v.cat = "Integer" := by
  have hlen := possibleLoads_length trucksMax drivers tu du h
  refine ⟨rfl, ?_, ?_, ?_⟩
  · intro x
    rw [objEval_buildProblem, hlen]
  · rw [buildProblem_vars, length_buildVars, hlen]
  · intro v hv
    rw [buildProblem_vars, buildVars] at hv
    simp only [List.mem_flatMap, List.mem_map] at hv
    obtain ⟨t, _, it, _, rfl⟩ := hv
    exact ⟨rfl, rfl, rfl⟩

/-- Witness for C4 at one carrier and one item. -/
theorem c4_objective_wit :
    (buildProblem (possibleLoads [2] [1] "kg" "kg")
        [⟨"pen".data, 4, 10, 7⟩]).maximize = true ∧
    (∀ x, objEval (buildProblem (possibleLoads [2] [1] "kg" "kg")
          [⟨"pen".data, 4, 10, 7⟩]) x
        = ([(⟨"pen".data, 4, 10, 7⟩ : Item)].map fun it =>
            ((List.range [(2 : Rat)].length).map
              fun t => it.utility * x (encode t it.name)).sum).sum) ∧
    (buildProblem (possibleLoads [2] [1] "kg" "kg")
        [⟨"pen".data, 4, 10, 7⟩]).vars.length
        = [(2 : Rat)].length * [(⟨"pen".data, 4, 10, 7⟩ : Item)].length ∧
    ∀ v ∈ (buildProblem (possibleLoads [2] [1] "kg" "kg")
        [⟨"pen".data, 4, 10, 7⟩]).vars,
      v.lowBound = some 0 ∧ v.upBound = none ∧ v.cat = "Integer" :=
  c4_objective [2] [1] "kg" "kg" [⟨"pen".data, 4, 10, 7⟩] (by decide)

/-- Witness for C8 (amended) at one carrier with gross capacity 100 gram and
driver weight 200 gram: the build succeeds and the constraint's right-hand
side is the negative difference. -/
theorem c8_noNegativeCapacityCheck_wit :
    buildDelivery [100] [200] "gram" "gram" []
      = .ok (buildProblem (possibleLoads [100] [200] "gram" "gram") []) ∧
    ∀ t, t < [(100 : Rat)].length →
      ∃ c, (buildProblem (possibleLoads [100] [200] "gram" "gram") []).constraints[t]?
            = some c ∧
        c.rhs = (toGram "gram" [100]).getD t 0 - (toGram "gram" [200]).getD t 0 :=
  c8_noNegativeCapacityCheck [100] [200] "gram" "gram" [] (by decide)

/- ### The post-solve phase -/

/-- C5 (counterexample): with solver status INFEASIBLE and a returned
variable "Truck_0_box" of value 1, the result phase still produces a
non-empty allocation list for truck 0 — the status does not suppress result
construction, and no structured status is returned to the caller. -/
theorem c5_cex :
    postSolve SolveStatus.infeasible 1 [("Truck_0_box".data, 1)]
      = [[("box".data, 1)]] ∧
    ([(("box".data : Chars), (1 : Rat))] ≠ []) := by
  constructor
  · decide
  · decide

/-- C5 (amended): the result phase is status-blind: the decoded per-truck
result lists are identical for any two solver statuses — the status is only
printed, it neither aborts result construction nor is returned — and the
lists are exactly the decoded solver variables. -/
theorem c5_statusBlind (s s' : SolveStatus) (n : Nat) (vs : List (Chars × Rat)) :
    postSolve s n vs = postSolve s' n vs ∧ postSolve s n vs = decodeTrucks n vs :=
  ⟨rfl, rfl⟩

/-- C6 (counterexample): the reported total utility is the solver's objective
value, taken as-is: with one item of unit utility 3 and a decoded count of 2,
an objective value of 100 is reported as the total utility even though the
utility recomputed from the decoded counts is 6. -/
theorem c6_cex :
    (buildReport [⟨"box".data, 10, 5000, 3⟩] [[("box".data, 2)]] 100).totalUtility
      = 100 ∧
    specRecomputedUtility [⟨"box".data, 10, 5000, 3⟩] [[("box".data, 2)]] = 6 ∧
    ((100 : Rat) ≠ 6) := by
  refine ⟨rfl, ?_, by norm_num⟩
  have hfil : ([(⟨"box".data, 10, 5000, 3⟩ : Item)].filter
      fun it => sanitize it.name == ("box".data : Chars))
        = [⟨"box".data, 10, 5000, 3⟩] := by decide
  simp [specRecomputedUtility, hfil]
  norm_num

theorem filter_eq_find?_of_nodup (items : List Item) (k : Chars)
    (h : (items.map fun it => sanitize it.name).Nodup) :
    items.filter (fun it => sanitize it.name == k)
      = ((items.find? fun it => sanitize it.name == k).map fun it => [it]).getD [] := by
  induction items with
  | nil => rfl
  | cons a rest ih =>
    rw [List.map_cons, List.nodup_cons] at h
    by_cases hk : sanitize a.name = k
    · rw [List.filter_cons_of_pos (by simp [hk]),
        List.find?_cons_of_pos _ (by simp [hk])]
      have hrest : rest.filter (fun it => sanitize it.name == k) = [] := by
        rw [List.filter_eq_nil_iff]
        intro it hit
        simp only [beq_iff_eq]
        intro heq
        have hm : sanitize it.name ∈ rest.map fun it => sanitize it.name :=
          List.mem_map_of_mem _ hit
        rw [heq, ← hk] at hm
        exact h.1 hm
      rw [hrest]
      rfl
    · rw [List.filter_cons_of_neg (by simp [hk]),
        List.find?_cons_of_neg _ (by simp [hk])]
      exact ih h.2

theorem filtered_weight_sum (items : List Item) (k : Chars) (v : Rat)
    (h : (items.map fun it => sanitize it.name).Nodup) :
    ((items.filter fun it => sanitize it.name == k).map
        fun it => v * it.weight).sum = v * weightOf items k := by
  rw [filter_eq_find?_of_nodup items k h, weightOf]
  cases hf : items.find? fun it => sanitize it.name == k with
  | none => simp
  | some it => simp

/-- C6 (amended): the per-carrier total weight is recomputed from the decoded
counts and the items' entity data (with unambiguous sanitized names it is the
count-weighted sum of the matched items' unit weights), but the reported
total utility is the solver's objective value used directly — it is not
recomputed from the decoded counts and not used as a mere cross-check. -/
theorem c6_reportedUtility (items : List Item) (decoded : List (List (Chars × Rat)))
    (objValue : Rat) (h : (items.map fun it => sanitize it.name).Nodup) :
    (buildReport items decoded objValue).totalUtility = objValue ∧
    (buildReport items decoded objValue).truckWeights
      = decoded.map fun tr => (tr.map fun kv => kv.2 * weightOf items kv.1).sum := by
  refine ⟨rfl, ?_⟩
  show decoded.map (totalTruckWeight items) = _
  refine List.map_congr_left fun tr _ => ?_
  rw [totalTruckWeight, sum_flatMap_rat]
  refine congrArg List.sum (List.map_congr_left fun kv _ => ?_)
  exact filtered_weight_sum items kv.1 kv.2 h

/-- Witness for C6 (amended) at one item, one decoded truck, objective value
7. -/
theorem c6_reportedUtility_wit :
    (buildReport [⟨"box".data, 10, 5000, 3⟩] [[("box".data, 2)]] 7).totalUtility
      = 7 ∧
    (buildReport [⟨"box".data, 10, 5000, 3⟩] [[("box".data, 2)]] 7).truckWeights
      = [[(("box".data : Chars), (2 : Rat))]].map fun tr =>
          (tr.map fun kv => kv.2 * weightOf [⟨"box".data, 10, 5000, 3⟩] kv.1).sum :=
  c6_reportedUtility [⟨"box".data, 10, 5000, 3⟩] [[("box".data, 2)]] 7 (by decide)

/-- C7 (counterexample): a negative and a non-integral solver value pass
through decoding into the produced result unchanged — no decode error, no
clamping: the result can contain a negative or fractional count. -/
theorem c7_cex :
    decodeTruck 0 [("Truck_0_box".data, -1)] = [("box".data, -1)] ∧
    decodeTruck 0 [("Truck_0_box".data, 1 / 2)] = [("box".data, 1 / 2)] ∧
    ((-1 : Rat) < 0) ∧ ¬ ∃ z : Int, (1 / 2 : Rat) = (z : Rat) := by
  refine ⟨by rfl, by rfl, by norm_num, ?_⟩
  rintro ⟨z, hz⟩
  have h2 : (1 : Rat) = 2 * (z : Rat) := by
    field_simp at hz
    linarith
  have h3 : (1 : Int) = 2 * z := by exact_mod_cast h2
  omega

/-- C7 (amended): decoding copies each matching variable's value into the
result unchanged — there is no sign, integrality or NaN check — so a produced
result holds exactly the solver-returned values: every decoded entry comes
from a returned variable with the same value under the truck's name head. -/
theorem c7_decodePassThrough (t : Nat) (vs : List (Chars × Rat)) (kv : Chars × Rat)
    (h : kv ∈ decodeTruck t vs) : (trkPfx t ++ kv.1, kv.2) ∈ vs := by
  rw [decodeTruck] at h
  obtain ⟨v, hv, hmap⟩ := List.mem_map.mp h
  obtain ⟨hvm, hpf⟩ := List.mem_filter.mp hv
  subst hmap
  rw [isPrefixOf_recover (trkPfx t) v.1 hpf]
  exact hvm

/-- Witness for C7 (amended): the decoded entry ("box", -1) of truck 0 comes
from the returned variable ("Truck_0_box", -1). -/
theorem c7_decodePassThrough_wit :
    ((trkPfx 0 ++ "box".data, (-1 : Rat))) ∈ [(("Truck_0_box".data : Chars), (-1 : Rat))] :=
  c7_decodePassThrough 0 [("Truck_0_box".data, -1)] ("box".data, -1) (by decide)

/- ### The efficiency ranking -/

theorem insertDescEff_perm (x : Chars × Rat) (l : List (Chars × Rat)) :
    (insertDescEff x l).Perm (x :: l) := by
  induction l with
  | nil => exact List.Perm.refl _
  | cons y ys ih =>
    rw [insertDescEff]
    by_cases hxy : x.2 < y.2
    · rw [if_pos hxy]
      exact (ih.cons y).trans (List.Perm.swap x y ys)
    · rw [if_neg hxy]

theorem sortDescEff_perm (l : List (Chars × Rat)) : (sortDescEff l).Perm l := by
  induction l with
  | nil => exact List.Perm.refl _
  | cons x xs ih =>
    rw [sortDescEff]
    exact (insertDescEff_perm x (sortDescEff xs)).trans (ih.cons x)

theorem insertDescEff_pairwise (x : Chars × Rat) (l : List (Chars × Rat))
    (h : l.Pairwise fun a b => b.2 ≤ a.2) :
    (insertDescEff x l).Pairwise fun a b => b.2 ≤ a.2 := by
  induction l with
  | nil => simp [insertDescEff]
  | cons y ys ih =>
    rw [List.pairwise_cons] at h
    obtain ⟨hy, hys⟩ := h
    rw [insertDescEff]
    by_cases hxy : x.2 < y.2
    · rw [if_pos hxy, List.pairwise_cons]
      refine ⟨fun z hz => ?_, ih hys⟩
      rcases List.mem_cons.mp ((insertDescEff_perm x ys).mem_iff.mp hz) with h | h
      · rw [h]; exact le_of_lt hxy
      · exact hy z h
    · rw [if_neg hxy, List.pairwise_cons]
      refine ⟨fun z hz => ?_, List.pairwise_cons.mpr ⟨hy, hys⟩⟩
      rcases List.mem_cons.mp hz with h | h
      · rw [h]; exact le_of_not_lt hxy
      · exact le_trans (hy z h) (le_of_not_lt hxy)

theorem sortDescEff_pairwise (l : List (Chars × Rat)) :
    (sortDescEff l).Pairwise fun a b => b.2 ≤ a.2 := by
  induction l with
  | nil => simp [sortDescEff]
  | cons x xs ih =>
    rw [sortDescEff]
    exact insertDescEff_pairwise x _ ih

theorem sublist_insertDescEff (x : Chars × Rat) (l : List (Chars × Rat)) :
    l.Sublist (insertDescEff x l) := by
  induction l with
  | nil => simp [insertDescEff]
  | cons y ys ih =>
    rw [insertDescEff]
    by_cases hxy : x.2 < y.2
    · rw [if_pos hxy]
      exact ih.cons₂ y
    · rw [if_neg hxy]
      exact (List.Sublist.refl _).cons x

theorem pair_sublist_insertDescEff {x y : Chars × Rat} {l : List (Chars × Rat)}
    (hy : y ∈ l) (hle : y.2 ≤ x.2) : [x, y].Sublist (insertDescEff x l) := by
  induction l with
  | nil => cases hy
  | cons z zs ih =>
    rw [insertDescEff]
    by_cases hxz : x.2 < z.2
    · rw [if_pos hxz]
      rcases List.mem_cons.mp hy with h | h
      · exact absurd (lt_of_le_of_lt hle hxz) (by rw [h]; exact lt_irrefl _)
      · exact (ih h).cons z
    · rw [if_neg hxz]
      exact List.Sublist.cons₂ x (List.singleton_sublist.mpr hy)

theorem sortDescEff_stable {x y : Chars × Rat} (l : List (Chars × Rat))
    (h : [x, y].Sublist l) (heq : x.2 = y.2) :
    [x, y].Sublist (sortDescEff l) := by
  induction l with
  | nil => simp at h
  | cons a as ih =>
    rw [sortDescEff]
    cases h with
    | cons _ h' =>
      exact (ih h').trans (sublist_insertDescEff a (sortDescEff as))
    | cons₂ _ h' =>
      exact pair_sublist_insertDescEff
        ((sortDescEff_perm as).mem_iff.mpr (List.singleton_sublist.mp h')) heq.ge

theorem dictUpsert_fresh (d : List (Chars × Rat)) (k : Chars) (v : Rat)
    (h : k ∉ d.map Prod.fst) : dictUpsert d k v = d ++ [(k, v)] := by
  rw [dictUpsert, if_neg]
  intro hc
  obtain ⟨kv, hkv, hbeq⟩ := List.any_eq_true.mp hc
  exact h (beq_iff_eq.mp hbeq ▸ List.mem_map_of_mem Prod.fst hkv)

theorem effDict_go (items : List Item) :
    ∀ (d : List (Chars × Rat)), (items.map Item.name).Nodup →
      (∀ it ∈ items, it.name ∉ d.map Prod.fst) →
      items.foldl (fun d it => dictUpsert d it.name (it.utility / it.weight)) d
        = d ++ items.map fun it => (it.name, it.utility / it.weight) := by
  induction items with
  | nil => intro d _ _; simp
  | cons a rest ih =>
    intro d hnd hfresh
    rw [List.map_cons, List.nodup_cons] at hnd
    rw [List.foldl_cons, dictUpsert_fresh d a.name _
      (hfresh a (List.mem_cons_self a rest))]
    rw [ih (d ++ [(a.name, a.utility / a.weight)]) hnd.2 ?_]
    · simp
    · intro it hit
      rw [List.map_append, List.mem_append]
      rintro (hin | hin)
      · exact hfresh it (List.mem_cons_of_mem a hit) hin
      · simp only [List.map_cons, List.map_nil, List.mem_singleton] at hin
        exact hnd.1 (hin ▸ List.mem_map_of_mem Item.name hit)

theorem effDict_eq (items : List Item) (h : (items.map Item.name).Nodup) :
    effDict items = items.map fun it => (it.name, it.utility / it.weight) := by
  rw [effDict, effDict_go items [] h (by simp)]
  rfl

/-- C9 (counterexample): an item with negative weight is not an error for
show_items_efficiency: here the item of weight -2 is silently included in the
returned ranking with its computed ratio 4 / -2 = -2 (sorted last); nothing
is rejected and nothing is skipped. -/
theorem c9_cex :
    show_items_efficiency [⟨"neg".data, 0, -2, 4⟩, ⟨"pos".data, 0, 2, 2⟩]
      = [("pos".data, 1), ("neg".data, -2)] ∧ ((-2 : Rat) < 0) := by
  constructor
  · have h1 : (4 : Rat) / -2 = -2 := by norm_num
    have h2 : (2 : Rat) / 2 = 1 := by norm_num
    rw [show show_items_efficiency [⟨"neg".data, 0, -2, 4⟩, ⟨"pos".data, 0, 2, 2⟩]
        = sortDescEff (effDict [⟨"neg".data, 0, -2, 4⟩, ⟨"pos".data, 0, 2, 2⟩])
      from rfl]
    rw [effDict_eq _ (by decide)]
    simp only [List.map_cons, List.map_nil, h1, h2]
    rw [sortDescEff, sortDescEff, sortDescEff, insertDescEff, insertDescEff,
      if_pos (by norm_num : (-2 : Rat) < 1), insertDescEff]
  · norm_num

/-- C9 (amended): show_items_efficiency is a pure function of the item list
(with pairwise distinct names): it returns exactly the (name, utility/weight)
pairs of the items, ordered by the ratio descending, with ties between equal
ratios kept in stable input order; an item with zero or negative weight is
not treated as an error — it is included with its computed ratio like any
other item. -/
theorem c9_efficiencyOrdered (items : List Item)
    (h : (items.map Item.name).Nodup) :
    (show_items_efficiency items).Perm
        (items.map fun it => (it.name, it.utility / it.weight)) ∧
    (show_items_efficiency items).Pairwise (fun a b => b.2 ≤ a.2) ∧
    ∀ x y : Chars × Rat, x.2 = y.2 →
      [x, y].Sublist (items.map fun it => (it.name, it.utility / it.weight)) →
      [x, y].Sublist (show_items_efficiency items) := by
  rw [show show_items_efficiency items = sortDescEff (effDict items) from rfl,
    effDict_eq items h]
  exact ⟨sortDescEff_perm _, sortDescEff_pairwise _,
    fun x y heq hsub => sortDescEff_stable _ hsub heq⟩

/-- Witness for C9 (amended) at two items with equal ratios (a tie). -/
theorem c9_efficiencyOrdered_wit :
    (show_items_efficiency [⟨"a".data, 0, 2, 4⟩, ⟨"b".data, 0, 1, 2⟩]).Perm
        ([(⟨"a".data, 0, 2, 4⟩ : Item), ⟨"b".data, 0, 1, 2⟩].map
          fun it => (it.name, it.utility / it.weight)) ∧
    (show_items_efficiency [⟨"a".data, 0, 2, 4⟩, ⟨"b".data, 0, 1, 2⟩]).Pairwise
        (fun a b => b.2 ≤ a.2) ∧
    ∀ x y : Chars × Rat, x.2 = y.2 →
      [x, y].Sublist ([(⟨"a".data, 0, 2, 4⟩ : Item), ⟨"b".data, 0, 1, 2⟩].map
        fun it => (it.name, it.utility / it.weight)) →
      [x, y].Sublist (show_items_efficiency [⟨"a".data, 0, 2, 4⟩, ⟨"b".data, 0, 1, 2⟩]) :=
  c9_efficiencyOrdered [⟨"a".data, 0, 2, 4⟩, ⟨"b".data, 0, 1, 2⟩] (by decide)

end DeliveryOpt
